import Mathlib

/-!
Shallow embedding of the `parabox-solver` push engine and solver data
structures (`src/lib.rs`, `src/solve.rs`), together with proofs settling the
specification claims about them.

Conventions of the embedding:
* `u8` coordinates and board ids become `Nat` (with the `≤ 255` overflow
  check of `u8::checked_add_signed` kept where the source performs it);
* in-place mutation of `State` becomes explicit state passing: `go` returns
  the result together with the (possibly updated) state, errors carry the
  untouched input state exactly as the source only writes in the success
  branch;
* Rust panics (`unreachable!()`, slice index out of bounds, failed
  `assert_eq!`) are modeled by a distinguished `panicked` outcome, or by
  `Option` for `set_player`;
* the push sequence is stored reversed (head = last pushed element), so the
  backpressure loop of `State::go` is structural recursion; the source's
  `push_seq.push`/`pop`/`last` become `cons`/head patterns;
* the iteration counter of `State::go` (`cnt > 1000` ⇒ `Stuck`) becomes a
  structural fuel of 1000, matching the source bound exactly;
* the `visited` walk in `State::sibling` consumes fuel `allCellPos.length + 1`:
  every iteration of the source loop pushes a fresh cell position onto
  `visited`, so the loop runs at most `|cells| + 1` times and this fuel is
  never exhausted on the states the claims quantify over.
-/

namespace Parabox

/-- `Cell` from lib.rs: `{Empty, Wall, Box, Board(BoardId)}`. -/
inductive Cell where
  | empty
  | wall
  | box
  | board (id : Nat)
  deriving DecidableEq

/-- `Cell::is_box_like`. -/
def Cell.is_box_like : Cell → Bool
  | .box => true
  | .board _ => true
  | _ => false

/-- `Vec2(row, col)` from lib.rs; `x` is the row (`.0`), `y` the column (`.1`). -/
structure Vec2 where
  x : Nat
  y : Nat
  deriving DecidableEq

/-- `Board` from lib.rs. -/
structure Board where
  height : Nat
  width : Nat
  grid : List Cell
  deriving DecidableEq

/-- `GlobalPos` from lib.rs. `BoardId` is a small integer, embedded as `Nat`. -/
structure GlobalPos where
  board_id : Nat
  pos : Vec2
  deriving DecidableEq

/-- `State` from lib.rs (the `boards` plus the player location). -/
structure State where
  player : GlobalPos
  boards : List Board
  deriving DecidableEq

/-- `Config` from lib.rs (the win configuration). -/
structure Config where
  player_target : GlobalPos
  box_targets : List GlobalPos
  deriving DecidableEq

/-- `Error` from lib.rs. -/
inductive Error where
  | stuck
  | unmovable
  | outOfInfinity
  deriving DecidableEq

/-- `Direction` from lib.rs. -/
inductive Direction where
  | right
  | down
  | left
  | up
  deriving DecidableEq

/-- `Direction::reversed`. -/
def Direction.reversed : Direction → Direction
  | .right => .left
  | .down => .up
  | .left => .right
  | .up => .down

/-- `InnerSibling` from lib.rs. -/
inductive InnerSibling where
  | wall
  | nonWall (gpos : GlobalPos)
  deriving DecidableEq

/-- `Board` cell lookup (`Index<Vec2> for Board`): `grid[x * width + y]`.
Out-of-bounds indexing panics in Rust; the embedding totalizes with `.empty`,
and every claim quantifies over states where all probed positions are in
bounds. -/
def Board.get (b : Board) (p : Vec2) : Cell :=
  b.grid.getD (p.x * b.width + p.y) .empty

/-- `IndexMut<Vec2> for Board`: overwrite `grid[x * width + y]`. -/
def Board.set (b : Board) (p : Vec2) (c : Cell) : Board :=
  { b with grid := b.grid.set (p.x * b.width + p.y) c }

/-- The successor step of the row-major position iterator in `Board::cells`. -/
def Board.stepPos (b : Board) (p : Vec2) : Vec2 :=
  if p.y + 1 < b.width then ⟨p.x, p.y + 1⟩ else ⟨p.x + 1, 0⟩

/-- The position paired with grid index `k` by `Board::cells`. -/
def Board.posOfIdx (b : Board) : Nat → Vec2
  | 0 => ⟨0, 0⟩
  | k + 1 => b.stepPos (b.posOfIdx k)

/-- `Board::cells`: enumerate `(pos, cell)` in row-major order. -/
def Board.cells (b : Board) : List (Vec2 × Cell) :=
  (List.range b.grid.length).map fun k => (b.posOfIdx k, b.grid.getD k .empty)

/-- The `checked_add_signed` step of `Board::sibling_pos` along the
`DIRECTIONS` table; the `≤ 255` guards mirror `u8` overflow, the zero guards
mirror `u8` underflow. -/
def Direction.stepVec (d : Direction) (p : Vec2) : Option Vec2 :=
  match d with
  | .right => if p.y + 1 ≤ 255 then some ⟨p.x, p.y + 1⟩ else none
  | .down => if p.x + 1 ≤ 255 then some ⟨p.x + 1, p.y⟩ else none
  | .left => if p.y = 0 then none else some ⟨p.x, p.y - 1⟩
  | .up => if p.x = 0 then none else some ⟨p.x - 1, p.y⟩

/-- `Board::sibling_pos`: the adjacent in-board position, or `none` when
stepping off an edge. -/
def Board.sibling_pos (b : Board) (p : Vec2) (d : Direction) : Option Vec2 :=
  match d.stepVec p with
  | none => none
  | some q => if b.height ≤ q.x ∨ b.width ≤ q.y then none else some q

/-- `Board::inner_sibling_pos`: the entry point when pushed into this board
from direction `push_dir`. -/
def Board.inner_sibling_pos (b : Board) (push_dir : Direction) : Vec2 :=
  match push_dir with
  | .right => ⟨b.height / 2, 0⟩
  | .down => ⟨0, b.width / 2⟩
  | .left => ⟨b.height / 2, b.width - 1⟩
  | .up => ⟨b.height - 1, b.width / 2⟩

/-- `Index<BoardId> for State` (out-of-bounds totalized with a dummy board). -/
def State.getBoard (s : State) (i : Nat) : Board :=
  s.boards.getD i ⟨0, 0, []⟩

/-- `Index<GlobalPos> for State`. -/
def State.get (s : State) (g : GlobalPos) : Cell :=
  (s.getBoard g.board_id).get g.pos

/-- `IndexMut<GlobalPos> for State`. -/
def State.set (s : State) (g : GlobalPos) (c : Cell) : State :=
  { s with boards := s.boards.set g.board_id ((s.getBoard g.board_id).set g.pos c) }

/-- `State::is_success_on`. -/
def State.is_success_on (s : State) (c : Config) : Bool :=
  decide (c.player_target = s.player) &&
    c.box_targets.all fun g => (s.get g).is_box_like

/-- `State::get_board_box_pos`: locate the cell equal to `Board(target)`. -/
def State.get_board_box_pos (s : State) (target : Nat) : Option GlobalPos :=
  s.boards.enum.findSome? fun ib =>
    ((ib.2.cells.find? fun pc => decide (pc.2 = Cell.board target)).map
      fun pc => { board_id := ib.1, pos := pc.1 : GlobalPos })

/-- All `(board, position)` pairs of cells of the state; only used to bound
the fuel of `State.sibling`. -/
def State.allCellPos (s : State) : List GlobalPos :=
  s.boards.enum.flatMap fun ib =>
    (List.range ib.2.grid.length).map fun k => ⟨ib.1, ib.2.posOfIdx k⟩

/-- The loop of `State::sibling`, with `visited` the already-crossed board
boxes.  Each source iteration either returns or pushes a fresh element of
`allCellPos` onto `visited`, hence the fuel below never runs out. -/
def State.siblingAux (s : State) (dir : Direction) :
    Nat → GlobalPos → List GlobalPos → Option GlobalPos
  | 0, _, _ => none
  | fuel + 1, gpos, visited =>
    match (s.getBoard gpos.board_id).sibling_pos gpos.pos dir with
    | some p => some ⟨gpos.board_id, p⟩
    | none =>
      match s.get_board_box_pos gpos.board_id with
      | none => none
      | some g2 =>
        if g2 ∈ visited then none
        else s.siblingAux dir fuel g2 (g2 :: visited)

/-- `State::sibling`: next global position in direction `dir`, following
exits out of boards; `none` encodes the `OutOfInfinity` walk failure. -/
def State.sibling (s : State) (gpos : GlobalPos) (dir : Direction) : Option GlobalPos :=
  s.siblingAux dir (s.allCellPos.length + 1) gpos []

/-- `State::inner_sibling`. -/
def State.inner_sibling (s : State) (board_id : Nat) (push_dir : Direction) : InnerSibling :=
  let board := s.getBoard board_id
  let pos := board.inner_sibling_pos push_dir
  match board.get pos with
  | .wall => .wall
  | _ => .nonWall ⟨board_id, pos⟩

/-- `State::set_player`.  The source `assert_eq!(replaced, Cell::Empty)`
panics on violation; the embedding returns `none` there. -/
def State.set_player (s : State) (new_gpos : GlobalPos) : Option State :=
  let prev_gpos := s.player
  let cell := s.get prev_gpos
  let s1 := s.set prev_gpos .empty
  let replaced := s1.get new_gpos
  let s2 := s1.set new_gpos cell
  if replaced = Cell.empty then some { s2 with player := new_gpos } else none

/-- Result of one `go` call: `Ok(pushed)`, `Err(e)`, or a Rust panic. -/
inductive GoRes where
  | ok (pushed : Bool)
  | err (e : Error)
  | panicked
  deriving DecidableEq

/-- Outcome of the backpressure (`Cell::Wall`) inner loop of `State::go`:
either `Unmovable`, a panic, or `continue 'try_push` with new probe data. -/
inductive WallOutcome where
  | unmovable
  | panicked
  | cont (curGpos : GlobalPos) (curDir : Direction) (pushSeqR : List GlobalPos)
  deriving DecidableEq

/-- The eat probe of the backpressure loop: after popping an edible
`last_gpos`, if the element now on top is a `Board` enterable in the
reversed direction, re-enqueue and reverse.  `none` means: keep popping. -/
def State.eatCheck (s : State) (curDir : Direction) (last_gpos top : GlobalPos)
    (rest : List GlobalPos) : Option WallOutcome :=
  match s.get top with
  | .board id2 =>
    match s.inner_sibling id2 curDir.reversed with
    | .nonWall eater => some (.cont eater curDir.reversed (last_gpos :: top :: rest))
    | .wall => none
  | _ => none

/-- The backpressure inner loop of `State::go`.  The push sequence is stored
reversed: the head is the element `pop` removes.  The source pops while
`len > 1`; popping below two elements returns `Unmovable`. -/
def State.wallLoopR (s : State) (curDir : Direction) :
    List GlobalPos → WallOutcome
  | [] => .unmovable
  | [_] => .unmovable
  | last_gpos :: top :: rest =>
    match s.get last_gpos with
    | .empty => .panicked
    | .wall => s.wallLoopR curDir (top :: rest)
    | .box =>
      match s.eatCheck curDir last_gpos top rest with
      | some o => o
      | none => s.wallLoopR curDir (top :: rest)
    | .board id =>
      match s.inner_sibling id curDir with
      | .nonWall gpos => .cont gpos curDir (top :: rest)
      | .wall =>
        match s.eatCheck curDir last_gpos top rest with
        | some o => o
        | none => s.wallLoopR curDir (top :: rest)

/-- One step of the success-branch shift: `cell = mem::replace(&mut self[gpos], cell)`. -/
def shiftStep (acc : State × Cell) (g : GlobalPos) : State × Cell :=
  (acc.1.set g acc.2, acc.1.get g)

/-- The success-branch chain shift of `State::go`, over the push sequence in
source order (player first, destination last), starting from an `Empty` carry. -/
def State.shift (s : State) (seq : List GlobalPos) : State × Cell :=
  seq.foldl shiftStep (s, .empty)

/-- The `'try_push` loop of `State::go`.  `fuel` is the remaining iteration
budget of the source counter (`cnt > 1000` ⇒ `Stuck`); `pushSeqR` is the push
sequence reversed. -/
def State.goLoop (s : State) :
    Nat → GlobalPos → Direction → List GlobalPos → GoRes × State
  | 0, _, _, _ => (.err .stuck, s)
  | fuel + 1, curGpos, curDir, pushSeqR =>
    match s.get curGpos with
    | .box | .board _ =>
      match s.sibling curGpos curDir with
      | none => (.err .outOfInfinity, s)
      | some g => s.goLoop fuel g curDir (curGpos :: pushSeqR)
    | .empty =>
      let seq := (curGpos :: pushSeqR).reverse
      let t := (s.shift seq).1
      match seq[1]? with
      | none => (.panicked, s)
      | some p1 => (.ok (decide (seq.length > 2)), { t with player := p1 })
    | .wall =>
      match s.wallLoopR curDir pushSeqR with
      | .unmovable => (.err .unmovable, s)
      | .panicked => (.panicked, s)
      | .cont g d sq => s.goLoop fuel g d sq

/-- `State::go`: move the player in direction `dir`; on success the second
component is the updated state, on error it is the untouched input state. -/
def State.go (s : State) (dir : Direction) : GoRes × State :=
  s.goLoop 1000 s.player dir []

/-! ## Well-formedness

The parser (`parse.rs`) only produces boards with `1 ≤ height, width < 16`
and in-range board references; `u8` representability bounds dimensions by
255.  These are the states every claim quantifies over. -/

/-- Dimensions are positive, `u8`-representable, and the grid has exactly
`height * width` cells. -/
def Board.WF (b : Board) : Prop :=
  1 ≤ b.height ∧ 1 ≤ b.width ∧ b.height ≤ 255 ∧ b.width ≤ 255 ∧
    b.grid.length = b.height * b.width

instance (b : Board) : Decidable b.WF := by unfold Board.WF; infer_instance

/-- The position addresses an actual cell of an actual board. -/
def State.InBounds (s : State) (g : GlobalPos) : Prop :=
  g.board_id < s.boards.length ∧ g.pos.x < (s.getBoard g.board_id).height ∧
    g.pos.y < (s.getBoard g.board_id).width

instance (s : State) (g : GlobalPos) : Decidable (s.InBounds g) := by
  unfold State.InBounds; infer_instance

/-- A cell's board reference, if any, is below `n`. -/
def Cell.boardRefLt (c : Cell) (n : Nat) : Bool :=
  match c with
  | .board i => decide (i < n)
  | _ => true

/-- State well-formedness: all boards well-formed, the player in bounds, and
all board references in range (guaranteed by the parser). -/
def State.WF (s : State) : Prop :=
  (∀ b ∈ s.boards, b.WF) ∧ s.InBounds s.player ∧
    ∀ b ∈ s.boards, ∀ c ∈ b.grid, c.boardRefLt s.boards.length = true

instance (s : State) : Decidable s.WF := by unfold State.WF; infer_instance

/-- `t` has the same board count and dimensions as `s` (cells may differ). -/
def SameShape (s t : State) : Prop :=
  t.boards.length = s.boards.length ∧
    ∀ i, (t.getBoard i).height = (s.getBoard i).height ∧
      (t.getBoard i).width = (s.getBoard i).width ∧
      (t.getBoard i).grid.length = (s.getBoard i).grid.length

/-- Number of cells across the whole state equal to `c`. -/
def cellCount (c : Cell) (s : State) : Nat :=
  (s.boards.map fun b => b.grid.count c).sum

/-- "Only the player moved": same shape, a new player position, the old
player cell is now `Empty`, the new player cell is now `Box`, and every
other cell is unchanged. -/
def OnlyPlayerMoved (s t : State) : Prop :=
  SameShape s t ∧ t.player ≠ s.player ∧
    t.get s.player = .empty ∧ t.get t.player = .box ∧
    ∀ g, s.InBounds g → g ≠ s.player → g ≠ t.player → t.get g = s.get g

/-- `BucketIndexSet` from solve.rs; the fixed arrays `elems` and `set`
become index functions, `set_marker` is the `u8` epoch byte. -/
structure BucketIndexSet where
  len : Nat
  elems : Nat → Nat
  set : Nat → Nat
  set_marker : Nat

/-- `BucketIndexSet::new`. -/
def BucketIndexSet.new : BucketIndexSet :=
  { len := 0, elems := fun _ => 0, set := fun _ => 0, set_marker := 1 }

/-- `BucketIndexSet::clear`: reset the length and bump the epoch byte with
`u8` wrapping; the marks are NOT zeroed. -/
def BucketIndexSet.clear (b : BucketIndexSet) : BucketIndexSet :=
  { b with len := 0, set_marker := (b.set_marker + 1) % 256 }

/-- `BucketIndexSet::try_insert`. -/
def BucketIndexSet.try_insert (b : BucketIndexSet) (v : Nat) : BucketIndexSet :=
  if b.set v = b.set_marker then b
  else { b with
    set := fun i => if i = v then b.set_marker else b.set i,
    elems := fun i => if i = b.len then v else b.elems i,
    len := b.len + 1 }

/-- An operation sequence on the bucket set. -/
inductive BucketOp where
  | clearOp
  | insertOp (v : Nat)

/-- Run a sequence of operations on a fresh `BucketIndexSet`. -/
def runBucketOps (ops : List BucketOp) : BucketIndexSet :=
  ops.foldl (fun b op => match op with
    | .clearOp => b.clear
    | .insertOp v => b.try_insert v) .new

/-- The abstract set semantics the claim asserts (from the spec's words):
the elements inserted since the most recent clear, in insertion order;
`insert v` appends exactly when `v` is absent. -/
def specBucketRun (ops : List BucketOp) : List Nat :=
  ops.foldl (fun cur op => match op with
    | .clearOp => []
    | .insertOp v => if v ∈ cur then cur else cur ++ [v]) []

/-- The failing operation sequence for claim C3: insert 0, clear 256 times
(the epoch byte wraps back to its original value 1), insert 0 again. -/
def bucketWrapOps : List BucketOp :=
  .insertOp 0 :: (List.replicate 256 .clearOp ++ [.insertOp 0])

/-- Counterexample state for claim C4: the single row `p.0` (player,
empty, self-reference to board 0). -/
def c4state : State := ⟨⟨0, 0, 0⟩, [⟨1, 3, [.box, .empty, .board 0]⟩]⟩

/-- Witness state for the amended claim C4: the single row `p.`. -/
def c4wit : State := ⟨⟨0, 0, 0⟩, [⟨1, 2, [.box, .empty]⟩]⟩

/-- Scenario S3 of the spec, taken literally: board 0 is the row `p0.`
(the `0` is a reference to board 0 itself), board 1 is the row `...`. -/
def s3state : State := ⟨⟨0, 0, 0⟩,
  [⟨1, 3, [.box, .board 0, .empty]⟩, ⟨1, 3, [.empty, .empty, .empty]⟩]⟩

/-- Failing state for claim C6: board 0 is `b#b1`, board 1 is `0p.b` with
the player at `(1,(0,1))`.  All three spec invariants hold here. -/
def c6state : State := ⟨⟨1, 0, 1⟩,
  [⟨1, 4, [.box, .wall, .box, .board 1]⟩, ⟨1, 4, [.board 0, .box, .empty, .box]⟩]⟩

/-- Witness state for claim C2: the single row `pb#`. -/
def c2state : State := ⟨⟨0, 0, 0⟩, [⟨1, 3, [.box, .box, .wall]⟩]⟩

/-- Witness state for claim C7: the single row `p.`. -/
def c7state : State := ⟨⟨0, 0, 0⟩, [⟨1, 2, [.box, .empty]⟩]⟩

/-- The state after `go Right` on `c7state`. -/
def c7post : State := ⟨⟨0, 0, 1⟩, [⟨1, 2, [.empty, .box]⟩]⟩

/-- Witness state for claim C9. -/
def c9state : State := ⟨⟨0, 0, 0⟩, [⟨1, 2, [.box, .empty]⟩]⟩

/-- Witness state for claim C10: a lone 1×1 board holding only the player,
referenced by no cell. -/
def c10state : State := ⟨⟨0, 0, 0⟩, [⟨1, 1, [.box]⟩]⟩


/-! ## Basic get/set algebra -/

theorem Cell.is_box_like_ne_empty {c : Cell} (h : c.is_box_like = true) :
    c ≠ .empty := by
  cases c <;> simp_all [Cell.is_box_like]

theorem Board.idx_lt {b : Board} (hwf : b.WF) {p : Vec2}
    (hx : p.x < b.height) (hy : p.y < b.width) :
    p.x * b.width + p.y < b.grid.length := by
  obtain ⟨-, -, -, -, hlen⟩ := hwf
  rw [hlen]
  calc p.x * b.width + p.y < p.x * b.width + b.width := by omega
    _ = (p.x + 1) * b.width := by ring
    _ ≤ b.height * b.width := Nat.mul_le_mul_right _ (by omega)

/-- In-bounds row-major indices are injective. -/
theorem Board.idx_inj {b : Board} {p q : Vec2}
    (hpy : p.y < b.width) (hqy : q.y < b.width)
    (hne : p ≠ q) : p.x * b.width + p.y ≠ q.x * b.width + q.y := by
  intro h
  apply hne
  have hx : p.x = q.x := by
    by_contra hxne
    rcases Nat.lt_or_ge p.x q.x with hlt | hge
    · have : p.x * b.width + p.y < q.x * b.width := by
        calc p.x * b.width + p.y < p.x * b.width + b.width := by omega
          _ = (p.x + 1) * b.width := by ring
          _ ≤ q.x * b.width := Nat.mul_le_mul_right _ (by omega)
      omega
    · have hgt : q.x < p.x := by omega
      have : q.x * b.width + q.y < p.x * b.width := by
        calc q.x * b.width + q.y < q.x * b.width + b.width := by omega
          _ = (q.x + 1) * b.width := by ring
          _ ≤ p.x * b.width := Nat.mul_le_mul_right _ (by omega)
      omega
  have hy : p.y = q.y := by rw [hx] at h; omega
  cases p; cases q
  simp_all

theorem getD_set_self {α : Type} (l : List α) (i : Nat) (c : α) (d : α)
    (h : i < l.length) : (l.set i c).getD i d = c := by
  rw [List.getD_eq_getElem?_getD, List.getElem?_set_self (by simpa using h)]
  rfl

theorem getD_set_ne {α : Type} (l : List α) {i j : Nat} (c : α) (d : α)
    (h : i ≠ j) : (l.set i c).getD j d = l.getD j d := by
  rw [List.getD_eq_getElem?_getD, List.getElem?_set_ne h, List.getD_eq_getElem?_getD]

theorem set_getD_self {α : Type} (l : List α) (i : Nat) (d : α)
    (h : i < l.length) : l.set i (l.getD i d) = l := by
  have hd : l.getD i d = l[i] := by
    rw [List.getD_eq_getElem?_getD, List.getElem?_eq_getElem h]
    rfl
  rw [hd]
  apply List.ext_getElem (by simp)
  intro n h1 h2
  rw [List.getElem_set]
  split
  · subst ‹i = n›; rfl
  · rfl

theorem getD_eq_getElem {α : Type} (l : List α) (i : Nat) (d : α)
    (h : i < l.length) : l.getD i d = l[i] := by
  rw [List.getD_eq_getElem?_getD, List.getElem?_eq_getElem h]
  rfl

theorem getD_mem {α : Type} (l : List α) (i : Nat) (d : α)
    (h : i < l.length) : l.getD i d ∈ l := by
  rw [getD_eq_getElem l i d h]
  exact List.getElem_mem h

/-! Board-level get/set lemmas. -/

theorem Board.height_set (b : Board) (p : Vec2) (c : Cell) :
    (b.set p c).height = b.height := rfl

theorem Board.width_set (b : Board) (p : Vec2) (c : Cell) :
    (b.set p c).width = b.width := rfl

theorem Board.grid_length_set (b : Board) (p : Vec2) (c : Cell) :
    (b.set p c).grid.length = b.grid.length := by
  simp [Board.set]

theorem Board.wf_set {b : Board} (hwf : b.WF) (p : Vec2) (c : Cell) :
    (b.set p c).WF := by
  obtain ⟨h1, h2, h3, h4, h5⟩ := hwf
  exact ⟨h1, h2, h3, h4, by simp [Board.set, h5]⟩

theorem Board.get_set_at {b : Board} {p : Vec2} (c : Cell) (hwf : b.WF)
    (hx : p.x < b.height) (hy : p.y < b.width) : (b.set p c).get p = c := by
  unfold Board.get Board.set
  exact getD_set_self _ _ _ _ (b.idx_lt hwf hx hy)

theorem Board.get_set_away {b : Board} {p q : Vec2} (c : Cell)
    (hpy : p.y < b.width) (hqy : q.y < b.width) (hne : p ≠ q) :
    (b.set p c).get q = b.get q := by
  unfold Board.get Board.set
  exact getD_set_ne _ _ _ (Board.idx_inj hpy hqy hne)

theorem Board.set_set (b : Board) (p : Vec2) (c c' : Cell) :
    (b.set p c).set p c' = b.set p c' := by
  unfold Board.set
  simp [List.set_set]

theorem Board.set_get_at {b : Board} {p : Vec2} (hwf : b.WF)
    (hx : p.x < b.height) (hy : p.y < b.width) : b.set p (b.get p) = b := by
  unfold Board.get Board.set
  rw [set_getD_self _ _ _ (b.idx_lt hwf hx hy)]

/-! State-level get/set lemmas. -/

theorem State.getBoard_mem {s : State} {i : Nat} (h : i < s.boards.length) :
    s.getBoard i ∈ s.boards := getD_mem _ _ _ h

theorem State.boards_length_set (s : State) (g : GlobalPos) (c : Cell) :
    (s.set g c).boards.length = s.boards.length := by
  simp [State.set]

theorem State.player_set (s : State) (g : GlobalPos) (c : Cell) :
    (s.set g c).player = s.player := rfl

theorem State.getBoard_set_same {s : State} {g : GlobalPos} (c : Cell)
    (h : g.board_id < s.boards.length) :
    (s.set g c).getBoard g.board_id = (s.getBoard g.board_id).set g.pos c := by
  unfold State.set State.getBoard
  exact getD_set_self _ _ _ _ h

theorem State.getBoard_set_ne {s : State} {g : GlobalPos} (c : Cell) {i : Nat}
    (h : g.board_id ≠ i) : (s.set g c).getBoard i = s.getBoard i := by
  unfold State.set State.getBoard
  exact getD_set_ne _ _ _ h

theorem State.get_set_self {s : State} {g : GlobalPos} (c : Cell)
    (hWFb : ∀ b ∈ s.boards, b.WF) (hg : s.InBounds g) : (s.set g c).get g = c := by
  obtain ⟨h1, h2, h3⟩ := hg
  unfold State.get
  rw [State.getBoard_set_same c h1]
  exact Board.get_set_at c (hWFb _ (State.getBoard_mem h1)) h2 h3

theorem State.get_set_ne {s : State} {g g' : GlobalPos} (c : Cell)
    (hg : s.InBounds g) (hg' : s.InBounds g') (hne : g ≠ g') :
    (s.set g c).get g' = s.get g' := by
  unfold State.get
  by_cases hb : g.board_id = g'.board_id
  · rw [← hb, State.getBoard_set_same c hg.1]
    have hpos : g.pos ≠ g'.pos := by
      intro h
      exact hne (by cases g; cases g'; simp_all)
    have hg'y : g'.pos.y < (s.getBoard g.board_id).width := by
      rw [hb]; exact hg'.2.2
    exact Board.get_set_away c hg.2.2 hg'y hpos
  · rw [State.getBoard_set_ne c hb]

theorem State.set_set_same (s : State) (g : GlobalPos) (c c' : Cell) :
    (s.set g c).set g c' = s.set g c' := by
  unfold State.set
  by_cases h : g.board_id < s.boards.length
  · unfold State.getBoard
    simp only [List.set_set]
    rw [getD_set_self _ _ _ _ h, Board.set_set]
  · have hle : s.boards.length ≤ g.board_id := by omega
    simp [List.set_eq_of_length_le hle, State.getBoard]

theorem State.set_get_self {s : State} {g : GlobalPos}
    (hWFb : ∀ b ∈ s.boards, b.WF) (hg : s.InBounds g) : s.set g (s.get g) = s := by
  obtain ⟨h1, h2, h3⟩ := hg
  unfold State.set State.get
  rw [Board.set_get_at (hWFb _ (State.getBoard_mem h1)) h2 h3]
  unfold State.getBoard
  rw [set_getD_self _ _ _ h1]

/-! ## Shape preservation and cell counting -/

theorem sameShape_self (s : State) : SameShape s s :=
  ⟨rfl, fun _ => ⟨rfl, rfl, rfl⟩⟩

theorem SameShape.trans {s t u : State} (h1 : SameShape s t) (h2 : SameShape t u) :
    SameShape s u := by
  refine ⟨h2.1.trans h1.1, fun i => ?_⟩
  obtain ⟨a1, a2, a3⟩ := h1.2 i
  obtain ⟨b1, b2, b3⟩ := h2.2 i
  exact ⟨b1.trans a1, b2.trans a2, b3.trans a3⟩

theorem sameShape_set (s : State) (g : GlobalPos) (c : Cell) :
    SameShape s (s.set g c) := by
  refine ⟨State.boards_length_set s g c, fun i => ?_⟩
  by_cases h : g.board_id = i
  · subst h
    by_cases hlt : g.board_id < s.boards.length
    · rw [State.getBoard_set_same c hlt]
      exact ⟨rfl, rfl, by simp [Board.set]⟩
    · unfold State.set State.getBoard
      rw [List.set_eq_of_length_le (by omega)]
      exact ⟨rfl, rfl, rfl⟩
  · rw [State.getBoard_set_ne c h]
    exact ⟨rfl, rfl, rfl⟩

theorem SameShape.inBounds_iff {s t : State} (h : SameShape s t) (g : GlobalPos) :
    t.InBounds g ↔ s.InBounds g := by
  obtain ⟨hl, hdims⟩ := h
  obtain ⟨hh, hw, -⟩ := hdims g.board_id
  unfold State.InBounds
  rw [hl, hh, hw]

theorem SameShape.wf_boards {s t : State} (h : SameShape s t)
    (hb : ∀ b ∈ s.boards, b.WF) : ∀ b ∈ t.boards, b.WF := by
  intro b hbmem
  obtain ⟨i, hi, rfl⟩ := List.mem_iff_getElem.mp hbmem
  have hgb : t.getBoard i = t.boards[i] := getD_eq_getElem _ _ _ hi
  obtain ⟨hh, hw, hlen⟩ := h.2 i
  have hi' : i < s.boards.length := by rw [← h.1]; exact hi
  have hwf := hb _ (State.getBoard_mem hi')
  rw [← hgb]
  unfold Board.WF at hwf ⊢
  rw [hh, hw, hlen]
  exact hwf

theorem count_set_cell (l : List Cell) (i : Nat) (c c' : Cell) (h : i < l.length) :
    (l.set i c').count c + (if l[i] = c then 1 else 0)
      = l.count c + (if c' = c then 1 else 0) := by
  induction l generalizing i with
  | nil => simp at h
  | cons a t ih =>
    cases i with
    | zero =>
      simp only [List.set_cons_zero, List.count_cons, List.getElem_cons_zero, beq_iff_eq]
      split_ifs <;> omega
    | succ n =>
      simp only [List.set_cons_succ, List.count_cons, List.getElem_cons_succ, beq_iff_eq]
      have := ih n (by simpa using h)
      split_ifs at this ⊢ <;> omega

theorem sum_set_nat (l : List Nat) (i : Nat) (m : Nat) (h : i < l.length) :
    (l.set i m).sum + l[i] = l.sum + m := by
  induction l generalizing i with
  | nil => simp at h
  | cons a t ih =>
    cases i with
    | zero => simp [List.sum_cons]; omega
    | succ n =>
      simp only [List.set_cons_succ, List.sum_cons, List.getElem_cons_succ]
      have := ih n (by simpa using h)
      omega

theorem cellCount_set (c : Cell) {s : State} {g : GlobalPos} (c' : Cell)
    (hWFb : ∀ b ∈ s.boards, b.WF) (hg : s.InBounds g) :
    cellCount c (s.set g c') + (if s.get g = c then 1 else 0)
      = cellCount c s + (if c' = c then 1 else 0) := by
  obtain ⟨h1, h2, h3⟩ := hg
  have hwf := hWFb _ (State.getBoard_mem h1)
  have hidx : g.pos.x * (s.getBoard g.board_id).width + g.pos.y
      < (s.getBoard g.board_id).grid.length := Board.idx_lt hwf h2 h3
  unfold cellCount State.set Board.set
  rw [List.map_set]
  dsimp only
  have hmlen : g.board_id < (s.boards.map fun b => b.grid.count c).length := by
    simpa using h1
  have hsum := sum_set_nat (s.boards.map fun b => b.grid.count c) g.board_id
    (((s.getBoard g.board_id).grid.set
      (g.pos.x * (s.getBoard g.board_id).width + g.pos.y) c').count c) hmlen
  have hget : (s.boards.map fun b => b.grid.count c)[g.board_id]
      = (s.getBoard g.board_id).grid.count c := by
    rw [List.getElem_map]
    unfold State.getBoard
    rw [getD_eq_getElem _ _ _ h1]
  rw [hget] at hsum
  have hcnt := count_set_cell (s.getBoard g.board_id).grid
    (g.pos.x * (s.getBoard g.board_id).width + g.pos.y) c c' hidx
  have hgetcell : (s.getBoard g.board_id).grid[g.pos.x * (s.getBoard g.board_id).width + g.pos.y]
      = s.get g := (getD_eq_getElem _ _ _ hidx).symm
  rw [hgetcell] at hcnt
  split_ifs at hcnt hsum ⊢ <;> omega

/-! ## Chain-shift lemmas

The success branch of `State::go` shifts the chain with a carried cell.  The
carry discipline preserves the total count of every cell value, leaves cells
outside the chain untouched, and preserves shapes. -/

theorem Board.ext_grid {a b : Board} (hh : a.height = b.height)
    (hw : a.width = b.width) (hg : a.grid = b.grid) : a = b := by
  cases a; cases b; simp_all

theorem shiftFold_shape :
    ∀ (seq : List GlobalPos) (st : State) (carry : Cell),
    SameShape st (seq.foldl shiftStep (st, carry)).1 := by
  intro seq
  induction seq with
  | nil => intro st carry; exact sameShape_self st
  | cons g rest ih =>
    intro st carry
    simp only [List.foldl_cons, shiftStep]
    exact (sameShape_set st g carry).trans (ih _ _)

theorem shiftFold_player :
    ∀ (seq : List GlobalPos) (st : State) (carry : Cell),
    (seq.foldl shiftStep (st, carry)).1.player = st.player := by
  intro seq
  induction seq with
  | nil => intro st carry; rfl
  | cons g rest ih =>
    intro st carry
    simp only [List.foldl_cons, shiftStep]
    exact (ih _ _).trans rfl

theorem shiftFold_get_notin :
    ∀ (seq : List GlobalPos) (st : State) (carry : Cell) (g' : GlobalPos),
    (∀ b ∈ st.boards, b.WF) → (∀ g ∈ seq, st.InBounds g) →
    st.InBounds g' → g' ∉ seq →
    (seq.foldl shiftStep (st, carry)).1.get g' = st.get g' := by
  intro seq
  induction seq with
  | nil => intro st carry g' _ _ _ _; rfl
  | cons g rest ih =>
    intro st carry g' hWFb hseq hg' hnotin
    simp only [List.foldl_cons, shiftStep]
    have hshape := sameShape_set st g carry
    have h1 : (rest.foldl shiftStep (st.set g carry, st.get g)).1.get g'
        = (st.set g carry).get g' := by
      apply ih
      · exact hshape.wf_boards hWFb
      · intro x hx
        exact (hshape.inBounds_iff x).mpr (hseq x (List.mem_cons_of_mem g hx))
      · exact (hshape.inBounds_iff g').mpr hg'
      · exact fun hmem => hnotin (List.mem_cons_of_mem g hmem)
    rw [h1]
    exact State.get_set_ne carry (hseq g (List.mem_cons_self g rest)) hg'
      (fun he => hnotin (he ▸ List.mem_cons_self g rest))

theorem shiftFold_count :
    ∀ (seq : List GlobalPos) (st : State) (carry : Cell) (c : Cell),
    (∀ b ∈ st.boards, b.WF) → (∀ g ∈ seq, st.InBounds g) →
    cellCount c (seq.foldl shiftStep (st, carry)).1
        + (if (seq.foldl shiftStep (st, carry)).2 = c then 1 else 0)
      = cellCount c st + (if carry = c then 1 else 0) := by
  intro seq
  induction seq with
  | nil => intro st carry c _ _; rfl
  | cons g rest ih =>
    intro st carry c hWFb hseq
    simp only [List.foldl_cons, shiftStep]
    have hshape := sameShape_set st g carry
    have h1 := ih (st.set g carry) (st.get g) c (hshape.wf_boards hWFb)
      (fun x hx => (hshape.inBounds_iff x).mpr (hseq x (List.mem_cons_of_mem g hx)))
    have h2 := cellCount_set c carry hWFb (hseq g (List.mem_cons_self g rest))
    split_ifs at h1 h2 ⊢ <;> omega

/-- Two states with the shape of `s` and equal cells at all in-bounds
positions have equal boards. -/
theorem boards_ext {s A B : State} (hA : SameShape s A) (hB : SameShape s B)
    (hWFb : ∀ b ∈ s.boards, b.WF)
    (h : ∀ g, s.InBounds g → A.get g = B.get g) : A.boards = B.boards := by
  apply List.ext_getElem (by rw [hA.1, hB.1])
  intro i h1 h2
  have hi : i < s.boards.length := by rw [← hA.1]; exact h1
  have eA : A.getBoard i = A.boards[i] := getD_eq_getElem _ _ _ h1
  have eB : B.getBoard i = B.boards[i] := getD_eq_getElem _ _ _ h2
  rw [← eA, ← eB]
  obtain ⟨ahh, ahw, ahl⟩ := hA.2 i
  obtain ⟨bhh, bhw, bhl⟩ := hB.2 i
  obtain ⟨hh1, hw1, hh255, hw255, hlen⟩ := hWFb _ (State.getBoard_mem hi)
  apply Board.ext_grid (ahh.trans bhh.symm) (ahw.trans bhw.symm)
  apply List.ext_getElem (by rw [ahl, bhl])
  intro k hk1 hk2
  have hks : k < (s.getBoard i).grid.length := by rw [← ahl]; exact hk1
  have hkhw : k < (s.getBoard i).height * (s.getBoard i).width := by
    rw [← hlen]; exact hks
  have hxlt : k / (s.getBoard i).width < (s.getBoard i).height :=
    (Nat.div_lt_iff_lt_mul (by omega)).mpr hkhw
  have hylt : k % (s.getBoard i).width < (s.getBoard i).width := Nat.mod_lt _ (by omega)
  have hib : s.InBounds ⟨i, k / (s.getBoard i).width, k % (s.getBoard i).width⟩ :=
    ⟨hi, hxlt, hylt⟩
  have hgets := h _ hib
  unfold State.get Board.get at hgets
  have hidx : k / (s.getBoard i).width * (s.getBoard i).width + k % (s.getBoard i).width = k := by
    rw [Nat.mul_comm]
    exact Nat.div_add_mod k (s.getBoard i).width
  simp only at hgets
  rw [ahw, bhw, hidx] at hgets
  rw [getD_eq_getElem _ _ _ hk1, getD_eq_getElem _ _ _ hk2] at hgets
  exact hgets

/-! ## Row-major enumeration and board-box lookup -/

theorem divmod_of (q r w : Nat) (hw : 0 < w) (hr : r < w) :
    (q * w + r) / w = q ∧ (q * w + r) % w = r := by
  constructor
  · rw [Nat.add_comm, Nat.add_mul_div_right _ _ hw, Nat.div_eq_of_lt hr]
    omega
  · rw [Nat.add_comm, Nat.add_mul_mod_self_right, Nat.mod_eq_of_lt hr]

/-- Closed form of the `Board::cells` position iterator. -/
theorem Board.posOfIdx_eq {b : Board} (hw : 1 ≤ b.width) (k : Nat) :
    b.posOfIdx k = ⟨k / b.width, k % b.width⟩ := by
  induction k with
  | zero => simp [Board.posOfIdx]
  | succ n ih =>
    rw [Board.posOfIdx, ih]
    unfold Board.stepPos
    have hrlt : n % b.width < b.width := Nat.mod_lt _ (by omega)
    have hdm : n = n / b.width * b.width + n % b.width := by
      rw [Nat.mul_comm]
      exact (Nat.div_add_mod n b.width).symm
    by_cases h : n % b.width + 1 < b.width
    · have := divmod_of (n / b.width) (n % b.width + 1) b.width (by omega) h
      simp only [h, if_true]
      have hsum : n + 1 = n / b.width * b.width + (n % b.width + 1) := by omega
      rw [hsum, this.1, this.2]
    · have hw1 : n % b.width + 1 = b.width := by omega
      have := divmod_of (n / b.width + 1) 0 b.width (by omega) (by omega)
      simp only [h, if_false]
      have hsum : n + 1 = (n / b.width + 1) * b.width + 0 := by
        rw [Nat.add_mul]
        omega
      rw [hsum, this.1, this.2]

/-- Inversion of `State::get_board_box_pos`: a found position is in bounds
and really holds `Board(target)`. -/
theorem get_board_box_pos_some {s : State} {target : Nat} {g2 : GlobalPos}
    (hWFb : ∀ b ∈ s.boards, b.WF)
    (h : s.get_board_box_pos target = some g2) :
    s.InBounds g2 ∧ s.get g2 = .board target := by
  unfold State.get_board_box_pos at h
  obtain ⟨ib, hmem, hib⟩ := List.exists_of_findSome?_eq_some h
  obtain ⟨pc, hfind, hpc⟩ := Option.map_eq_some'.mp hib
  have hpred := List.find?_some hfind
  have hcell : pc.2 = Cell.board target := by simpa using hpred
  have hpcmem := List.mem_of_find?_eq_some hfind
  have hgetb : s.boards[ib.1]? = some ib.2 := List.mem_enum_iff_getElem?.mp hmem
  have hblt : ib.1 < s.boards.length := by
    have := List.getElem?_eq_some.mp hgetb
    exact this.1
  have hboard : s.getBoard ib.1 = ib.2 := by
    unfold State.getBoard
    obtain ⟨hlt, hget⟩ := List.getElem?_eq_some.mp hgetb
    rw [getD_eq_getElem _ _ _ hlt, hget]
  have hwf := hWFb ib.2 (by rw [← hboard]; exact State.getBoard_mem hblt)
  obtain ⟨hh1, hw1, -, -, hlen⟩ := hwf
  unfold Board.cells at hpcmem
  obtain ⟨k, hkmem, hkeq⟩ := List.mem_map.mp hpcmem
  have hklt : k < ib.2.grid.length := List.mem_range.mp hkmem
  have hkhw : k < ib.2.height * ib.2.width := by rw [← hlen]; exact hklt
  have hpos : pc.1 = ⟨k / ib.2.width, k % ib.2.width⟩ := by
    rw [← hkeq]
    exact Board.posOfIdx_eq hw1 k
  have hxlt : k / ib.2.width < ib.2.height := (Nat.div_lt_iff_lt_mul (by omega)).mpr hkhw
  have hylt : k % ib.2.width < ib.2.width := Nat.mod_lt _ (by omega)
  have hg2 : g2 = ⟨ib.1, pc.1⟩ := hpc.symm
  constructor
  · rw [hg2, hpos]
    exact ⟨hblt, by rw [hboard]; exact hxlt, by rw [hboard]; exact hylt⟩
  · rw [hg2]
    unfold State.get Board.get
    simp only
    rw [hboard, hpos]
    simp only
    have hidx : k / ib.2.width * ib.2.width + k % ib.2.width = k := by
      rw [Nat.mul_comm]
      exact Nat.div_add_mod k ib.2.width
    rw [hidx, ← hcell]
    have : ib.2.grid.getD k .empty = pc.2 := by
      rw [← hkeq]
    exact this

/-! ## Sibling and backpressure lemmas -/

theorem Board.sibling_pos_some_bounds {b : Board} {p q : Vec2} {d : Direction}
    (h : b.sibling_pos p d = some q) : q.x < b.height ∧ q.y < b.width := by
  unfold Board.sibling_pos at h
  rcases hq : d.stepVec p with - | q' <;> rw [hq] at h
  · simp at h
  · dsimp only at h
    split_ifs at h with hb
    simp only [Option.some.injEq] at h
    subst h
    push_neg at hb
    exact hb

theorem siblingAux_inbounds {s : State} (hWFb : ∀ b ∈ s.boards, b.WF)
    (d : Direction) :
    ∀ (fuel : Nat) (g : GlobalPos) (vs : List GlobalPos) (g' : GlobalPos),
    g.board_id < s.boards.length →
    s.siblingAux d fuel g vs = some g' → s.InBounds g' := by
  intro fuel
  induction fuel with
  | zero => intro g vs g' _ h; simp [State.siblingAux] at h
  | succ n ih =>
    intro g vs g' hb h
    rw [State.siblingAux] at h
    rcases hsib : (s.getBoard g.board_id).sibling_pos g.pos d with - | p
    · rw [hsib] at h
      rcases hgb : s.get_board_box_pos g.board_id with - | g2
      · rw [hgb] at h; simp at h
      · rw [hgb] at h
        by_cases hmem : g2 ∈ vs
        · simp [hmem] at h
        · simp only [hmem, if_false] at h
          have hg2 := (get_board_box_pos_some hWFb hgb).1
          exact ih g2 (g2 :: vs) g' hg2.1 h
    · rw [hsib] at h
      simp only [Option.some.injEq] at h
      obtain ⟨hx, hy⟩ := Board.sibling_pos_some_bounds hsib
      rw [← h]
      exact ⟨hb, hx, hy⟩

theorem sibling_inbounds {s : State} (hWFb : ∀ b ∈ s.boards, b.WF)
    {g g' : GlobalPos} {d : Direction} (hb : g.board_id < s.boards.length)
    (h : s.sibling g d = some g') : s.InBounds g' :=
  siblingAux_inbounds hWFb d _ g [] g' hb h

theorem get_mem_grid {s : State} {g : GlobalPos}
    (hWFb : ∀ b ∈ s.boards, b.WF) (hg : s.InBounds g) :
    s.get g ∈ (s.getBoard g.board_id).grid := by
  obtain ⟨h1, h2, h3⟩ := hg
  unfold State.get Board.get
  exact getD_mem _ _ _ (Board.idx_lt (hWFb _ (State.getBoard_mem h1)) h2 h3)

theorem refLt_of_get {s : State}
    (hWFb : ∀ b ∈ s.boards, b.WF)
    (hrefs : ∀ b ∈ s.boards, ∀ c ∈ b.grid, c.boardRefLt s.boards.length = true)
    {g : GlobalPos} {id : Nat} (hg : s.InBounds g) (h : s.get g = .board id) :
    id < s.boards.length := by
  have hmem := get_mem_grid hWFb hg
  have := hrefs _ (State.getBoard_mem hg.1) _ hmem
  rw [h] at this
  simpa [Cell.boardRefLt] using this

theorem Board.inner_sibling_pos_bounds {b : Board} (hwf : b.WF) (d : Direction) :
    (b.inner_sibling_pos d).x < b.height ∧ (b.inner_sibling_pos d).y < b.width := by
  obtain ⟨h1, h2, -, -, -⟩ := hwf
  cases d <;> simp [Board.inner_sibling_pos] <;> omega

theorem inner_sibling_nonWall {s : State} {id : Nat} {d : Direction} {g : GlobalPos}
    (h : s.inner_sibling id d = .nonWall g) :
    g = ⟨id, (s.getBoard id).inner_sibling_pos d⟩ := by
  unfold State.inner_sibling at h
  dsimp only at h
  rcases hc : (s.getBoard id).get ((s.getBoard id).inner_sibling_pos d) with - | - | - | i <;>
    rw [hc] at h <;> simp_all

theorem inner_sibling_nonWall_inbounds {s : State}
    (hWFb : ∀ b ∈ s.boards, b.WF) {id : Nat} {d : Direction} {g : GlobalPos}
    (hid : id < s.boards.length)
    (h : s.inner_sibling id d = .nonWall g) : s.InBounds g := by
  rw [inner_sibling_nonWall h]
  obtain ⟨hx, hy⟩ := Board.inner_sibling_pos_bounds (hWFb _ (State.getBoard_mem hid)) d
  exact ⟨hid, hx, hy⟩

theorem eatCheck_some {s : State} {d : Direction} {last top : GlobalPos}
    {rest : List GlobalPos} {o : WallOutcome}
    (h : s.eatCheck d last top rest = some o) :
    ∃ id2 eater, s.get top = .board id2 ∧
      s.inner_sibling id2 d.reversed = .nonWall eater ∧
      o = .cont eater d.reversed (last :: top :: rest) := by
  unfold State.eatCheck at h
  rcases hc : s.get top with - | - | - | id2 <;> rw [hc] at h <;> try simp_all
  rcases hi : s.inner_sibling id2 d.reversed with - | eater <;> rw [hi] at h <;> simp_all

/-- Facts about a `continue 'try_push` outcome of the backpressure loop: the
new sequence only drops or re-adds existing elements, stays nonempty, keeps
the bottom (player) element, and the new probe position is in bounds. -/
theorem wallLoopR_cont_facts {s : State}
    (hWFb : ∀ b ∈ s.boards, b.WF)
    (hrefs : ∀ b ∈ s.boards, ∀ c ∈ b.grid, c.boardRefLt s.boards.length = true)
    (d : Direction) :
    ∀ (seqR : List GlobalPos) {g : GlobalPos} {d' : Direction}
      {seqR' : List GlobalPos},
    s.wallLoopR d seqR = .cont g d' seqR' →
    (∀ x ∈ seqR, s.InBounds x) →
    (∀ x ∈ seqR', x ∈ seqR) ∧ seqR' ≠ [] ∧ seqR'.getLast? = seqR.getLast? ∧
      s.InBounds g := by
  intro seqR
  induction seqR with
  | nil => intro g d' seqR' h _; simp [State.wallLoopR] at h
  | cons a tail ih =>
    intro g d' seqR' h hib
    cases tail with
    | nil => simp [State.wallLoopR] at h
    | cons b rest =>
      have hibt : ∀ x ∈ b :: rest, s.InBounds x := fun x hx =>
        hib x (List.mem_cons_of_mem a hx)
      have hsub : ∀ x ∈ b :: rest, x ∈ a :: b :: rest := fun x hx =>
        List.mem_cons_of_mem a hx
      have hlast : (b :: rest).getLast? = (a :: b :: rest).getLast? :=
        List.getLast?_cons_cons.symm
      have hinn : ∀ {id2 : Nat} {eater : GlobalPos} {dd : Direction},
          s.get b = .board id2 → s.inner_sibling id2 dd = .nonWall eater →
          s.InBounds eater := by
        intro id2 eater dd hc hi
        exact inner_sibling_nonWall_inbounds hWFb
          (refLt_of_get hWFb hrefs (hibt b (List.mem_cons_self b rest)) hc) hi
      have heat : ∀ (o : WallOutcome), s.eatCheck d a b rest = some o →
          o = .cont g d' seqR' →
          (∀ x ∈ seqR', x ∈ a :: b :: rest) ∧ seqR' ≠ [] ∧
            seqR'.getLast? = (a :: b :: rest).getLast? ∧ s.InBounds g := by
        intro o ho hoeq
        obtain ⟨id2, eater, hc, hi, rfl⟩ := eatCheck_some ho
        obtain ⟨h1, h2, h3⟩ := WallOutcome.cont.inj hoeq
        subst h1; subst h3
        exact ⟨fun x hx => hx, by simp, rfl, hinn hc hi⟩
      rw [State.wallLoopR] at h
      rcases hcell : s.get a with - | - | - | id <;> rw [hcell] at h <;> dsimp only at h
      · simp at h
      · obtain ⟨hs, hn, hl, hg⟩ := ih h hibt
        exact ⟨fun x hx => hsub _ (hs x hx), hn, hl.trans hlast.symm, hg⟩
      · rcases heq : s.eatCheck d a b rest with - | o <;> rw [heq] at h <;> dsimp only at h
        · obtain ⟨hs, hn, hl, hg⟩ := ih h hibt
          exact ⟨fun x hx => hsub _ (hs x hx), hn, hl.trans hlast.symm, hg⟩
        · exact heat o heq h
      · rcases hi : s.inner_sibling id d with - | gpos <;> rw [hi] at h <;> dsimp only at h
        · rcases heq : s.eatCheck d a b rest with - | o <;> rw [heq] at h <;> dsimp only at h
          · obtain ⟨hs, hn, hl, hg⟩ := ih h hibt
            exact ⟨fun x hx => hsub _ (hs x hx), hn, hl.trans hlast.symm, hg⟩
          · exact heat o heq h
        · obtain ⟨h1, h2, h3⟩ := WallOutcome.cont.inj h
          subst h1; subst h3
          refine ⟨hsub, by simp, hlast, ?_⟩
          exact inner_sibling_nonWall_inbounds hWFb
            (refLt_of_get hWFb hrefs (hib a (List.mem_cons_self a (b :: rest))) hcell) hi

/-! ## Characterization of successful `go` runs -/

/-- A successful `goLoop` run from a nonempty chain of box-like in-bounds
cells yields: a final reversed chain `fseqR` of box-like in-bounds cells
with the same bottom element, an `Empty` in-bounds destination not in the
chain, and the result is the chain shift with the player at the chain's
second element (in source order). -/
theorem goLoop_ok {s : State}
    (hWFb : ∀ b ∈ s.boards, b.WF)
    (hrefs : ∀ b ∈ s.boards, ∀ c ∈ b.grid, c.boardRefLt s.boards.length = true) :
    ∀ (fuel : Nat) (cur : GlobalPos) (dir : Direction) (seqR : List GlobalPos)
      (pushed : Bool) (t : State),
    s.goLoop fuel cur dir seqR = (.ok pushed, t) →
    s.InBounds cur →
    seqR ≠ [] →
    (∀ g ∈ seqR, (s.get g).is_box_like = true ∧ s.InBounds g) →
    ∃ (fseqR : List GlobalPos) (dest : GlobalPos),
      (∀ g ∈ fseqR, (s.get g).is_box_like = true ∧ s.InBounds g) ∧
      s.get dest = .empty ∧ s.InBounds dest ∧ dest ∉ fseqR ∧
      fseqR ≠ [] ∧ fseqR.getLast? = seqR.getLast? ∧
      t.boards = (s.shift ((dest :: fseqR).reverse)).1.boards ∧
      ((dest :: fseqR).reverse)[1]? = some t.player ∧
      pushed = decide (((dest :: fseqR).reverse).length > 2) := by
  intro fuel
  induction fuel with
  | zero =>
    intro cur dir seqR pushed t hgo
    simp [State.goLoop] at hgo
  | succ n ih =>
    intro cur dir seqR pushed t hgo hcur hne hseq
    rw [State.goLoop] at hgo
    obtain ⟨x, xs, rfl⟩ := List.exists_cons_of_ne_nil hne
    rcases hcell : s.get cur with - | - | - | id <;> rw [hcell] at hgo <;> dsimp only at hgo
    · -- Empty: terminal success
      rcases hp : ((cur :: x :: xs).reverse)[1]? with - | p1 <;> rw [hp] at hgo <;>
        dsimp only at hgo
      · exfalso
        have hlen : ((cur :: x :: xs).reverse).length = xs.length + 2 := by simp
        have := List.getElem?_eq_none_iff.mp hp
        omega
      · cases hgo
        refine ⟨x :: xs, cur, hseq, hcell, hcur, ?_, by simp, rfl, rfl, hp, rfl⟩
        intro hmem
        exact Cell.is_box_like_ne_empty (hseq cur hmem).1 hcell
    · -- Wall: backpressure
      rcases hw : s.wallLoopR dir (x :: xs) with - | - | ⟨g, d2, sq⟩ <;> rw [hw] at hgo <;>
        dsimp only at hgo
      · simp at hgo
      · simp at hgo
      · obtain ⟨hsub, hn, hl, hg⟩ :=
          wallLoopR_cont_facts hWFb hrefs dir (x :: xs) hw (fun y hy => (hseq y hy).2)
        obtain ⟨fseqR, dest, a1, a2, a3, a4, a5, a6, a7, a8, a9⟩ :=
          ih g d2 sq pushed t hgo hg hn (fun y hy => hseq y (hsub y hy))
        exact ⟨fseqR, dest, a1, a2, a3, a4, a5, a6.trans hl, a7, a8, a9⟩
    · -- Box: push and advance
      rcases hs : s.sibling cur dir with - | g2 <;> rw [hs] at hgo <;> dsimp only at hgo
      · simp at hgo
      · have hg2 : s.InBounds g2 := sibling_inbounds hWFb hcur.1 hs
        have hcons : ∀ g ∈ cur :: x :: xs,
            (s.get g).is_box_like = true ∧ s.InBounds g := by
          intro g hmem
          rcases List.mem_cons.mp hmem with rfl | hmem2
          · exact ⟨by simp [hcell, Cell.is_box_like], hcur⟩
          · exact hseq g hmem2
        obtain ⟨fseqR, dest, a1, a2, a3, a4, a5, a6, a7, a8, a9⟩ :=
          ih g2 dir (cur :: x :: xs) pushed t hgo hg2 (by simp) hcons
        refine ⟨fseqR, dest, a1, a2, a3, a4, a5, ?_, a7, a8, a9⟩
        rw [a6]
        exact List.getLast?_cons_cons
    · -- Board: push and advance
      rcases hs : s.sibling cur dir with - | g2 <;> rw [hs] at hgo <;> dsimp only at hgo
      · simp at hgo
      · have hg2 : s.InBounds g2 := sibling_inbounds hWFb hcur.1 hs
        have hcons : ∀ g ∈ cur :: x :: xs,
            (s.get g).is_box_like = true ∧ s.InBounds g := by
          intro g hmem
          rcases List.mem_cons.mp hmem with rfl | hmem2
          · exact ⟨by simp [hcell, Cell.is_box_like], hcur⟩
          · exact hseq g hmem2
        obtain ⟨fseqR, dest, a1, a2, a3, a4, a5, a6, a7, a8, a9⟩ :=
          ih g2 dir (cur :: x :: xs) pushed t hgo hg2 (by simp) hcons
        refine ⟨fseqR, dest, a1, a2, a3, a4, a5, ?_, a7, a8, a9⟩
        rw [a6]
        exact List.getLast?_cons_cons

/-- Characterization of a successful `State::go` call. -/
theorem go_ok {s : State} (hWF : s.WF) {d : Direction} {pushed : Bool} {t : State}
    (hgo : s.go d = (.ok pushed, t)) :
    ∃ (fseqR : List GlobalPos) (dest : GlobalPos),
      (∀ g ∈ fseqR, (s.get g).is_box_like = true ∧ s.InBounds g) ∧
      s.get dest = .empty ∧ s.InBounds dest ∧ dest ∉ fseqR ∧
      fseqR ≠ [] ∧ fseqR.getLast? = some s.player ∧
      t.boards = (s.shift ((dest :: fseqR).reverse)).1.boards ∧
      ((dest :: fseqR).reverse)[1]? = some t.player ∧
      pushed = decide (((dest :: fseqR).reverse).length > 2) := by
  obtain ⟨hWFb, hpib, hrefs⟩ := hWF
  unfold State.go at hgo
  have h1000 : (1000 : Nat) = 999 + 1 := rfl
  rw [h1000, State.goLoop] at hgo
  rcases hcell : s.get s.player with - | - | - | id <;> rw [hcell] at hgo <;>
    dsimp only at hgo
  · simp at hgo
  · simp [State.wallLoopR] at hgo
  · rcases hs : s.sibling s.player d with - | g2 <;> rw [hs] at hgo <;> dsimp only at hgo
    · simp at hgo
    · have hg2 : s.InBounds g2 := sibling_inbounds hWFb hpib.1 hs
      obtain ⟨fseqR, dest, a1, a2, a3, a4, a5, a6, a7, a8, a9⟩ :=
        goLoop_ok hWFb hrefs 999 g2 d [s.player] pushed t hgo hg2 (by simp)
          (by intro g hg
              rcases List.mem_singleton.mp hg with rfl
              exact ⟨by simp [hcell, Cell.is_box_like], hpib⟩)
      exact ⟨fseqR, dest, a1, a2, a3, a4, a5, by simpa using a6, a7, a8, a9⟩
  · rcases hs : s.sibling s.player d with - | g2 <;> rw [hs] at hgo <;> dsimp only at hgo
    · exact absurd hgo (by simp)
    · have hg2 : s.InBounds g2 := sibling_inbounds hWFb hpib.1 hs
      obtain ⟨fseqR, dest, a1, a2, a3, a4, a5, a6, a7, a8, a9⟩ :=
        goLoop_ok hWFb hrefs 999 g2 d [s.player] pushed t hgo hg2 (by simp)
          (by intro g hg
              rcases List.mem_singleton.mp hg with rfl
              exact ⟨by simp [hcell, Cell.is_box_like], hpib⟩)
      exact ⟨fseqR, dest, a1, a2, a3, a4, a5, by simpa using a6, a7, a8, a9⟩

/-! ## The non-pushing move pattern (claim C7 machinery) -/

theorem State.get_congr_boards {t u : State} (h : t.boards = u.boards)
    (g : GlobalPos) : t.get g = u.get g := by
  unfold State.get State.getBoard
  rw [h]

theorem cellCount_congr_boards {t u : State} (h : t.boards = u.boards)
    (c : Cell) : cellCount c t = cellCount c u := by
  unfold cellCount
  rw [h]

theorem sameShape_congr_boards {s t u : State} (h : t.boards = u.boards)
    (hu : SameShape s u) : SameShape s t := by
  refine ⟨?_, fun i => ?_⟩
  · rw [h]; exact hu.1
  · have := hu.2 i
    unfold State.getBoard at this ⊢
    rw [h]
    exact this

theorem shift_pair (s : State) (p0 dest : GlobalPos) :
    (s.shift [p0, dest]).1 = (s.set p0 .empty).set dest (s.get p0) := rfl

/-- Shape of a non-pushing success: the player stepped onto an empty cell
`dest` and only the two player cells changed. -/
theorem go_ok_false_shape {s : State} (hWF : s.WF) (hpc : s.get s.player = .box)
    {d : Direction} {t : State} (hgo : s.go d = (.ok false, t)) :
    ∃ dest, s.get dest = .empty ∧ s.InBounds dest ∧ dest ≠ s.player ∧
      t.player = dest ∧
      t.boards = ((s.set s.player .empty).set dest .box).boards := by
  obtain ⟨fseqR, dest, a1, a2, a3, a4, a5, a6, a7, a8, a9⟩ := go_ok hWF hgo
  have hlen2 : ((dest :: fseqR).reverse).length = fseqR.length + 1 := by simp
  have hle : ¬ ((dest :: fseqR).reverse).length > 2 := by
    intro hgt
    rw [show (decide (((dest :: fseqR).reverse).length > 2)) = true from
      decide_eq_true hgt] at a9
    exact Bool.false_ne_true a9
  have hfl : fseqR.length = 1 := by
    have hpos : fseqR.length ≠ 0 := fun h0 => a5 (List.length_eq_zero.mp h0)
    omega
  obtain ⟨z, hzeq⟩ := List.length_eq_one.mp hfl
  subst hzeq
  have hz : z = s.player := by
    have : some z = some s.player := by simpa using a6
    exact Option.some.inj this
  subst hz
  have hrev : ((dest :: [s.player]).reverse) = [s.player, dest] := by simp
  rw [hrev] at a7 a8
  have hplayer : t.player = dest := by
    have : some dest = some t.player := by simpa using a8
    exact (Option.some.inj this).symm
  have hdne : dest ≠ s.player :=
    fun he => a4 (he ▸ List.mem_singleton_self s.player)
  refine ⟨dest, a2, a3, hdne, hplayer, ?_⟩
  rw [a7, shift_pair, hpc]

/-- Claim C7: whenever `go` returns `Ok(pushed)` on a well-formed state,
`pushed` is `false` exactly when only the player moved: the post-state
differs from the pre-state only in the player field, the player's old cell
(now `Empty`) and its new cell (now `Box`).  (The claim's other half,
`pushed = push_seq.len() > 2`, is the literal return expression of the
embedded `State.goLoop` success branch, and `goLoop_ok` exposes it as
`pushed = decide (seqF.length > 2)` over the final chain.) -/
theorem go_pushed_iff {s : State} (hWF : s.WF) (hpc : s.get s.player = .box)
    {d : Direction} {pushed : Bool} {t : State}
    (hgo : s.go d = (.ok pushed, t)) :
    pushed = false ↔ OnlyPlayerMoved s t := by
  obtain ⟨hWFb, hpib, hrefs⟩ := hWF
  constructor
  · -- non-pushing ⇒ only the player moved
    intro hfalse
    subst hfalse
    obtain ⟨dest, a2, a3, hdne, hplayer, hboards⟩ :=
      go_ok_false_shape ⟨hWFb, hpib, hrefs⟩ hpc hgo
    have hshapeB : SameShape s ((s.set s.player .empty).set dest .box) :=
      (sameShape_set s s.player .empty).trans (sameShape_set _ dest .box)
    have hshape : SameShape s t := sameShape_congr_boards hboards hshapeB
    have hWFb1 : ∀ b ∈ (s.set s.player .empty).boards, b.WF :=
      (sameShape_set s s.player .empty).wf_boards hWFb
    have hib1 : (s.set s.player .empty).InBounds dest :=
      ((sameShape_set s s.player .empty).inBounds_iff dest).mpr a3
    have hib1p : (s.set s.player .empty).InBounds s.player :=
      ((sameShape_set s s.player .empty).inBounds_iff s.player).mpr hpib
    refine ⟨hshape, by rw [hplayer]; exact hdne, ?_, ?_, ?_⟩
    · rw [State.get_congr_boards hboards]
      rw [State.get_set_ne .box hib1 hib1p hdne]
      exact State.get_set_self .empty hWFb hpib
    · rw [State.get_congr_boards hboards, hplayer]
      exact State.get_set_self .box hWFb1 hib1
    · intro g hg hg1 hg2
      rw [State.get_congr_boards hboards]
      rw [State.get_set_ne .box hib1
        (((sameShape_set s s.player .empty).inBounds_iff g).mpr hg)
        (fun he => hg2 (he.symm.trans hplayer.symm))]
      exact State.get_set_ne .empty hpib hg (fun he => hg1 he.symm)
  · -- only the player moved ⇒ non-pushing
    intro hOPM
    by_contra hne
    have htrue : pushed = true := by
      cases pushed
      · exact absurd rfl hne
      · rfl
    subst htrue
    obtain ⟨fseqR, dest, a1, a2, a3, a4, a5, a6, a7, a8, a9⟩ :=
      go_ok ⟨hWFb, hpib, hrefs⟩ hgo
    have hgt : ((dest :: fseqR).reverse).length > 2 := by
      by_contra hle
      rw [show (decide (((dest :: fseqR).reverse).length > 2)) = false from
        decide_eq_false hle] at a9
      exact Bool.noConfusion a9
    have hfl : 2 ≤ fseqR.length := by
      have : ((dest :: fseqR).reverse).length = fseqR.length + 1 := by simp
      omega
    have hsplit : ((dest :: fseqR).reverse) = fseqR.reverse ++ [dest] := by simp
    have h1lt : 1 < fseqR.reverse.length := by simpa using hfl
    have hq_mem : t.player ∈ fseqR := by
      rw [hsplit] at a8
      rw [List.getElem?_append_left h1lt] at a8
      exact List.mem_reverse.mp (List.getElem?_mem a8)
    have hq_bl := (a1 _ hq_mem).1
    have hq_ib := (a1 _ hq_mem).2
    have hq_ne_dest : t.player ≠ dest := fun he => a4 (he ▸ hq_mem)
    have hp_mem : s.player ∈ fseqR := List.mem_of_mem_getLast? a6
    -- conservation of the Empty count along the shift
    have hallin : ∀ g ∈ (dest :: fseqR).reverse, s.InBounds g := by
      intro g hgm
      rw [List.mem_reverse, List.mem_cons] at hgm
      rcases hgm with rfl | hgm
      · exact a3
      · exact (a1 g hgm).2
    have hmid : (s.shift fseqR.reverse).1.get dest = s.get dest := by
      apply shiftFold_get_notin fseqR.reverse s .empty dest hWFb
      · intro g hgm
        exact (a1 g (List.mem_reverse.mp hgm)).2
      · exact a3
      · rw [List.mem_reverse]
        exact a4
    have hfoldsplit : s.shift ((dest :: fseqR).reverse)
        = shiftStep (s.shift fseqR.reverse) dest := by
      rw [hsplit]
      unfold State.shift
      rw [List.foldl_append]
      rfl
    have hcarry : (s.shift ((dest :: fseqR).reverse)).2 = .empty := by
      rw [hfoldsplit]
      show (s.shift fseqR.reverse).1.get dest = .empty
      rw [hmid]
      exact a2
    have hcons := shiftFold_count ((dest :: fseqR).reverse) s .empty .empty hWFb hallin
    rw [show ((dest :: fseqR).reverse).foldl shiftStep (s, Cell.empty)
        = s.shift ((dest :: fseqR).reverse) from rfl] at hcons
    rw [hcarry] at hcons
    simp only [if_pos rfl] at hcons
    have hcons2 : cellCount Cell.empty (s.shift ((dest :: fseqR).reverse)).1
        = cellCount Cell.empty s := by omega
    have hcount_t : cellCount Cell.empty t = cellCount Cell.empty s := by
      rw [cellCount_congr_boards a7]
      exact hcons2
    -- the only-player pattern forces one extra Empty cell
    obtain ⟨hshape, hqp, hold, hnew, hrest⟩ := hOPM
    have hB : t.boards = ((s.set s.player .empty).set t.player .box).boards := by
      apply boards_ext hshape
        ((sameShape_set s s.player .empty).trans (sameShape_set _ t.player .box)) hWFb
      intro g hg
      have hib1 : (s.set s.player .empty).InBounds t.player :=
        ((sameShape_set s s.player .empty).inBounds_iff t.player).mpr hq_ib
      have hibg : (s.set s.player .empty).InBounds g :=
        ((sameShape_set s s.player .empty).inBounds_iff g).mpr hg
      by_cases hgq : g = t.player
      · subst hgq
        rw [hnew]
        rw [State.get_set_self .box
          ((sameShape_set s s.player .empty).wf_boards hWFb) hib1]
      · by_cases hgp : g = s.player
        · subst hgp
          rw [hold]
          rw [State.get_set_ne .box hib1 hibg (fun he => hgq he.symm)]
          rw [State.get_set_self .empty hWFb hpib]
        · rw [hrest g hg hgp hgq]
          rw [State.get_set_ne .box hib1 hibg (fun he => hgq he.symm)]
          rw [State.get_set_ne .empty hpib hg (fun he => hgp he.symm)]
    have hc1 := cellCount_set .empty .empty hWFb hpib
    have hsq : (s.set s.player .empty).get t.player = s.get t.player :=
      State.get_set_ne .empty hpib hq_ib (fun he => hqp he.symm)
    have hc2 := cellCount_set .empty .box
      ((sameShape_set s s.player .empty).wf_boards hWFb)
      (((sameShape_set s s.player .empty).inBounds_iff t.player).mpr hq_ib)
    rw [hsq] at hc2
    have hpc_ne : (if s.get s.player = Cell.empty then 1 else 0) = 0 := by
      rw [hpc]; rfl
    have hq_ne : (if s.get t.player = Cell.empty then 1 else 0) = 0 := by
      rcases hcq : s.get t.player with - | - | - | i
      · rw [hcq] at hq_bl; simp [Cell.is_box_like] at hq_bl
      · rfl
      · rfl
      · rfl
    have hcount_B := cellCount_congr_boards hB Cell.empty
    rw [hpc_ne] at hc1
    rw [hq_ne] at hc2
    simp at hc1
    have hbox0 : (if Cell.box = Cell.empty then 1 else 0) = 0 := rfl
    rw [hbox0] at hc2
    have hfinal : cellCount Cell.empty s + 1 = cellCount Cell.empty s := by
      calc cellCount Cell.empty s + 1
          = cellCount Cell.empty (s.set s.player Cell.empty) := by omega
        _ = cellCount Cell.empty ((s.set s.player Cell.empty).set t.player Cell.box) := by
            omega
        _ = cellCount Cell.empty t := hcount_B.symm
        _ = cellCount Cell.empty s := hcount_t
    omega

/-! ## Error atomicity -/

/-- Any non-`Ok` result of the main loop returns exactly the input state:
the source writes to `self` only in the success branch. -/
theorem goLoop_state_eq_or_ok (s : State) :
    ∀ (fuel : Nat) (cur : GlobalPos) (dir : Direction) (seqR : List GlobalPos),
    (s.goLoop fuel cur dir seqR).2 = s ∨
      ∃ b, (s.goLoop fuel cur dir seqR).1 = .ok b := by
  intro fuel
  induction fuel with
  | zero => intro cur dir seqR; exact Or.inl rfl
  | succ n ih =>
    intro cur dir seqR
    rw [State.goLoop]
    rcases hcell : s.get cur with - | - | - | id <;> dsimp only
    · rcases hp : (((cur :: seqR).reverse))[1]? with - | p1 <;> dsimp only
      · exact Or.inl rfl
      · exact Or.inr ⟨_, rfl⟩
    · rcases hw : s.wallLoopR dir seqR with - | - | ⟨g, d2, sq⟩ <;> dsimp only
      · exact Or.inl rfl
      · exact Or.inl rfl
      · exact ih g d2 sq
    · rcases hs : s.sibling cur dir with - | g2 <;> dsimp only
      · exact Or.inl rfl
      · exact ih g2 dir (cur :: seqR)
    · rcases hs : s.sibling cur dir with - | g2 <;> dsimp only
      · exact Or.inl rfl
      · exact ih g2 dir (cur :: seqR)

/-- Claim C2: when `go` returns any error (`Unmovable`, `OutOfInfinity` or
`Stuck`), the post-call state equals the pre-call state (hence all board
grid bytes and the `player` field are unchanged). -/
theorem go_err_atomic (s : State) (d : Direction) (e : Error)
    (h : (s.go d).1 = .err e) : (s.go d).2 = s := by
  unfold State.go at h ⊢
  rcases goLoop_state_eq_or_ok s 1000 s.player d [] with heq | ⟨b, hb⟩
  · exact heq
  · rw [hb] at h
    exact GoRes.noConfusion h

/-! ## Walking off an unreferenced board (claim C10) -/

/-- Claim C10: if the player cell is box-like, its in-board neighbour in
direction `d` does not exist, and no cell of the state references the
player's board, then `go` fails with `OutOfInfinity` (not `Unmovable`) and
the state is returned unchanged. -/
theorem go_unreferenced_edge_out_of_infinity (s : State) (d : Direction)
    (hbl : (s.get s.player).is_box_like = true)
    (hsib : (s.getBoard s.player.board_id).sibling_pos s.player.pos d = none)
    (href : s.get_board_box_pos s.player.board_id = none) :
    s.go d = (.err .outOfInfinity, s) := by
  have hsibling : s.sibling s.player d = none := by
    unfold State.sibling
    rw [State.siblingAux]
    rw [hsib]
    dsimp only
    rw [href]
  unfold State.go
  have h1000 : (1000 : Nat) = 999 + 1 := rfl
  rw [h1000, State.goLoop]
  rcases hcell : s.get s.player with - | - | - | id <;> dsimp only
  · rw [hcell] at hbl; simp [Cell.is_box_like] at hbl
  · rw [hcell] at hbl; simp [Cell.is_box_like] at hbl
  · rw [hsibling]
  · rw [hsibling]

/-! ## `set_player` at the current position (claim C9) -/

/-- Claim C9: `set_player` with the current player position is accepted
(the `assert_eq!` sees `Empty` because `mem::take` already blanked the
cell, even though the cell itself holds `Box`, not `Empty`) and the state
is completely unchanged. -/
theorem set_player_self (s : State) (hWF : s.WF) :
    s.set_player s.player = some s := by
  obtain ⟨hWFb, hpib, -⟩ := hWF
  unfold State.set_player
  dsimp only
  rw [State.get_set_self .empty hWFb hpib]
  rw [State.set_set_same]
  rw [State.set_get_self hWFb hpib]
  rfl

/-! ## Reversibility of plain in-board steps (claim C4, amended) -/

theorem Board.sibling_pos_reversed {b : Board} (hwf : b.WF) {p q : Vec2}
    {d : Direction} (hpx : p.x < b.height) (hpy : p.y < b.width)
    (h : b.sibling_pos p d = some q) :
    b.sibling_pos q d.reversed = some p := by
  obtain ⟨-, -, hh255, hw255, -⟩ := hwf
  cases d
  case right =>
    unfold Board.sibling_pos Direction.stepVec at h
    dsimp only at h
    split_ifs at h with h1
    dsimp only at h
    split_ifs at h with h2
    simp only [Option.some.injEq] at h
    subst h
    push_neg at h2
    unfold Board.sibling_pos Direction.stepVec Direction.reversed
    dsimp only
    rw [if_neg (by omega : ¬(p.y + 1 = 0))]
    dsimp only
    rw [if_neg (by push_neg; exact ⟨hpx, by omega⟩)]
    rfl
  case down =>
    unfold Board.sibling_pos Direction.stepVec at h
    dsimp only at h
    split_ifs at h with h1
    dsimp only at h
    split_ifs at h with h2
    simp only [Option.some.injEq] at h
    subst h
    push_neg at h2
    unfold Board.sibling_pos Direction.stepVec Direction.reversed
    dsimp only
    rw [if_neg (by omega : ¬(p.x + 1 = 0))]
    dsimp only
    rw [if_neg (by push_neg; exact ⟨by omega, hpy⟩)]
    rfl
  case left =>
    unfold Board.sibling_pos Direction.stepVec at h
    dsimp only at h
    split_ifs at h with h1
    dsimp only at h
    split_ifs at h with h2
    simp only [Option.some.injEq] at h
    subst h
    push_neg at h2
    unfold Board.sibling_pos Direction.stepVec Direction.reversed
    dsimp only
    rw [if_pos (by omega : p.y - 1 + 1 ≤ 255)]
    dsimp only
    rw [if_neg (by push_neg; exact ⟨hpx, by omega⟩)]
    have heq : p.y - 1 + 1 = p.y := by omega
    rw [heq]
  case up =>
    unfold Board.sibling_pos Direction.stepVec at h
    dsimp only at h
    split_ifs at h with h1
    dsimp only at h
    split_ifs at h with h2
    simp only [Option.some.injEq] at h
    subst h
    push_neg at h2
    unfold Board.sibling_pos Direction.stepVec Direction.reversed
    dsimp only
    rw [if_pos (by omega : p.x - 1 + 1 ≤ 255)]
    dsimp only
    rw [if_neg (by push_neg; exact ⟨by omega, hpy⟩)]
    have heq : p.x - 1 + 1 = p.x := by omega
    rw [heq]

theorem sibling_of_sibling_pos {s : State} {g : GlobalPos} {d : Direction} {p : Vec2}
    (h : (s.getBoard g.board_id).sibling_pos g.pos d = some p) :
    s.sibling g d = some ⟨g.board_id, p⟩ := by
  unfold State.sibling
  rw [State.siblingAux, h]

theorem Board.sibling_pos_congr {a b : Board} (hh : a.height = b.height)
    (hw : a.width = b.width) (p : Vec2) (d : Direction) :
    a.sibling_pos p d = b.sibling_pos p d := by
  unfold Board.sibling_pos
  rw [hh, hw]

theorem State.set_congr_boards {t u : State} (h : t.boards = u.boards)
    (g : GlobalPos) (c : Cell) : (t.set g c).boards = (u.set g c).boards := by
  unfold State.set State.getBoard
  dsimp only
  rw [h]

theorem State.ext2 {a b : State} (hp : a.player = b.player)
    (hb : a.boards = b.boards) : a = b := by
  cases a; cases b; simp_all

/-- The state after a plain non-pushing step of the player onto the empty
in-board neighbour `q`. -/
theorem State.getBoard_congr_boards {t u : State} (h : t.boards = u.boards)
    (i : Nat) : t.getBoard i = u.getBoard i := by
  unfold State.getBoard
  rw [h]

theorem go_nonpush_inboard_reverse_aux (s : State) (d : Direction) (q : Vec2)
    (hWF : s.WF) (hpc : s.get s.player = .box)
    (hsib : (s.getBoard s.player.board_id).sibling_pos s.player.pos d = some q)
    (hempty : s.get ⟨s.player.board_id, q⟩ = .empty)
    (T : State)
    (hTplayer : T.player = ⟨s.player.board_id, q⟩)
    (hTboards : T.boards
      = ((s.set s.player .empty).set ⟨s.player.board_id, q⟩ .box).boards) :
    T.go d.reversed = (.ok false, s) := by
  obtain ⟨hWFb, hpib, hrefs⟩ := hWF
  obtain ⟨hqx, hqy⟩ := Board.sibling_pos_some_bounds hsib
  have hibq : s.InBounds ⟨s.player.board_id, q⟩ := ⟨hpib.1, hqx, hqy⟩
  have hne : (⟨s.player.board_id, q⟩ : GlobalPos) ≠ s.player := by
    intro he
    rw [he, hpc] at hempty
    exact Cell.noConfusion hempty
  have hXshape := sameShape_set s s.player Cell.empty
  have hXWFb : ∀ b ∈ (s.set s.player .empty).boards, b.WF := hXshape.wf_boards hWFb
  have hXibq : (s.set s.player .empty).InBounds ⟨s.player.board_id, q⟩ :=
    (hXshape.inBounds_iff _).mpr hibq
  have hXibp : (s.set s.player .empty).InBounds s.player :=
    (hXshape.inBounds_iff _).mpr hpib
  have hUshape : SameShape s ((s.set s.player .empty).set ⟨s.player.board_id, q⟩ .box) :=
    hXshape.trans (sameShape_set _ _ _)
  have hsp : (⟨s.player.board_id, s.player.pos⟩ : GlobalPos) = s.player := rfl
  have hTq : T.get ⟨s.player.board_id, q⟩ = Cell.box := by
    rw [State.get_congr_boards hTboards]
    exact State.get_set_self .box hXWFb hXibq
  have hTp0 : T.get ⟨s.player.board_id, s.player.pos⟩ = Cell.empty := by
    rw [hsp, State.get_congr_boards hTboards]
    rw [State.get_set_ne .box hXibq hXibp hne]
    exact State.get_set_self .empty hWFb hpib
  have hrevstep : (T.getBoard s.player.board_id).sibling_pos q d.reversed
      = some s.player.pos := by
    rw [State.getBoard_congr_boards hTboards]
    have hdims := hUshape.2 s.player.board_id
    rw [Board.sibling_pos_congr hdims.1 hdims.2.1 q d.reversed]
    exact Board.sibling_pos_reversed (hWFb _ (State.getBoard_mem hpib.1))
      hpib.2.1 hpib.2.2 hsib
  have hback : ((T.set ⟨s.player.board_id, q⟩ .empty).set
      ⟨s.player.board_id, s.player.pos⟩ Cell.box).boards = s.boards := by
    rw [hsp]
    calc ((T.set ⟨s.player.board_id, q⟩ .empty).set s.player Cell.box).boards
        = ((((s.set s.player .empty).set ⟨s.player.board_id, q⟩ .box).set
            ⟨s.player.board_id, q⟩ .empty).set s.player Cell.box).boards := by
          apply State.set_congr_boards
          exact State.set_congr_boards hTboards _ _
      _ = s.boards := by
          rw [State.set_set_same]
          have hXq : (s.set s.player .empty).get ⟨s.player.board_id, q⟩ = Cell.empty := by
            rw [State.get_set_ne .empty hpib hibq (fun he => hne he.symm)]
            exact hempty
          have hcollapse : (s.set s.player .empty).set ⟨s.player.board_id, q⟩ Cell.empty
              = s.set s.player .empty := by
            have h1 := State.set_get_self hXWFb hXibq
            rw [hXq] at h1
            exact h1
          rw [hcollapse, State.set_set_same]
          have hbox : s.set s.player Cell.box = s := by
            have h1 := State.set_get_self hWFb hpib
            rw [hpc] at h1
            exact h1
          rw [hbox]
  unfold State.go
  rw [show (1000 : Nat) = 999 + 1 from rfl, State.goLoop, hTplayer]
  rw [hTq]
  try dsimp only
  rw [sibling_of_sibling_pos (show (T.getBoard
    (⟨s.player.board_id, q⟩ : GlobalPos).board_id).sibling_pos
    (⟨s.player.board_id, q⟩ : GlobalPos).pos d.reversed = some s.player.pos from hrevstep)]
  try dsimp only
  rw [show (999 : Nat) = 998 + 1 from rfl, State.goLoop]
  rw [hTp0]
  try dsimp only
  simp only [List.reverse_cons, List.reverse_nil, List.nil_append, List.cons_append,
    List.getElem?_cons_succ, List.getElem?_cons_zero, List.length_cons, List.length_nil]
  try dsimp only
  rw [Prod.mk.injEq]
  refine ⟨rfl, ?_⟩
  apply State.ext2
  · exact hsp
  · rw [show (T.shift [(⟨s.player.board_id, q⟩ : GlobalPos),
        (⟨s.player.board_id, s.player.pos⟩ : GlobalPos)]).1
      = (T.set ⟨s.player.board_id, q⟩ .empty).set
          ⟨s.player.board_id, s.player.pos⟩ (T.get ⟨s.player.board_id, q⟩)
      from shift_pair T _ _]
    rw [hTq]
    exact hback

/-- Claim C4 (amended): if the player's in-board neighbour `q` in direction
`d` exists and holds `Empty`, then `go d` succeeds with `pushed = false`
moving the player to `q`, and `go (reversed d)` on the result succeeds with
`pushed = false` and returns exactly the original state. -/
theorem go_nonpush_inboard_reversible (s : State) (d : Direction) (q : Vec2)
    (hWF : s.WF) (hpc : s.get s.player = .box)
    (hsib : (s.getBoard s.player.board_id).sibling_pos s.player.pos d = some q)
    (hempty : s.get ⟨s.player.board_id, q⟩ = .empty) :
    ∃ t, s.go d = (.ok false, t) ∧ t.player = ⟨s.player.board_id, q⟩ ∧
      t.go d.reversed = (.ok false, s) := by
  have hshift : (s.shift [s.player, ⟨s.player.board_id, q⟩]).1
      = (s.set s.player .empty).set ⟨s.player.board_id, q⟩ .box := by
    rw [shift_pair, hpc]
  refine ⟨{ player := ⟨s.player.board_id, q⟩,
            boards := ((s.set s.player .empty).set ⟨s.player.board_id, q⟩ .box).boards },
    ?_, rfl, ?_⟩
  · -- forward move
    unfold State.go
    rw [show (1000 : Nat) = 999 + 1 from rfl, State.goLoop, hpc]
    try dsimp only
    rw [sibling_of_sibling_pos hsib]
    try dsimp only
    rw [show (999 : Nat) = 998 + 1 from rfl, State.goLoop, hempty]
    try dsimp only
    simp only [List.reverse_cons, List.reverse_nil, List.nil_append, List.cons_append,
      List.getElem?_cons_succ, List.getElem?_cons_zero, List.length_cons, List.length_nil]
    try dsimp only
    rw [hshift]
    rfl
  · exact go_nonpush_inboard_reverse_aux s d q hWF hpc hsib hempty _ rfl rfl

/-! ## `BucketIndexSet` (solve.rs) and claim C3 -/

set_option maxRecDepth 40000 in
/-- Claim C3: after the epoch byte wraps past 255, `BucketIndexSet` stops
behaving as a set — the final `try_insert 0` is ignored (stale mark from
256 epochs ago equals the wrapped marker), so the code's length is 0 while
the abstract set semantics requires the element to be appended (length 1).
The required full zeroing of the marks on wrap-around is missing in
`BucketIndexSet::clear`. -/
theorem bucketIndexSet_wrap_bug :
    (runBucketOps bucketWrapOps).len = 0 ∧
      (specBucketRun bucketWrapOps).length = 1 ∧
      (runBucketOps bucketWrapOps).set_marker = 1 ∧
      (runBucketOps bucketWrapOps).set 0 = 1 := by
  refine ⟨rfl, rfl, rfl, rfl⟩

/-! ## Concrete claim instances -/

/-- Claim C4 (counterexample): `c4state` satisfies the state invariants
(player cell is `Box`, board references unique, well-formed boards), and
`go Left` succeeds with `pushed = false` (the player exits board 0 through
its own box cell), but `go (reversed Left)` on the result fails with
`OutOfInfinity` instead of succeeding and restoring the original state. -/
theorem c4_claim_false :
    c4state.WF ∧ c4state.get c4state.player = .box ∧
      (∀ i < c4state.boards.length, cellCount (.board i) c4state ≤ 1) ∧
      (c4state.go .left).1 = .ok false ∧
      ((c4state.go .left).2.go ((Direction.left).reversed)).1 = .err .outOfInfinity := by
  decide

/-- Witness for the amended claim C4 at a concrete input. -/
theorem c4_amended_witness :
    ∃ t, c4wit.go .right = (.ok false, t) ∧ t.player = ⟨0, 0, 1⟩ ∧
      t.go (Direction.right).reversed = (.ok false, c4wit) :=
  go_nonpush_inboard_reversible c4wit .right ⟨0, 1⟩ (by decide) (by decide)
    (by decide) (by decide)

/-- Claim C5 (counterexample): on the S3 state `go Right` succeeds, but the
player ends at `(0, (0,1))` — inside board 0, not board 1 — and board 0's
row does not read `.0.`. -/
theorem s3_claim_false :
    (s3state.go .right).1 = .ok true ∧
      (s3state.go .right).2.player = ⟨0, 0, 1⟩ ∧
      (s3state.go .right).2.player.board_id ≠ 1 ∧
      ((s3state.go .right).2.getBoard 0).grid ≠ [.empty, .board 0, .empty] := by
  decide

/-- Claim C5 (amended): on the S3 state `go Right` is a plain push with
`pushed = true`: board 0 becomes `.p0` (player at `(0,(0,1))`, the board-0
reference shifted to `(0,(0,2))`), and board 1 is unchanged; the player
does not enter board 1. -/
theorem s3_go_right_actual :
    s3state.go .right = (.ok true, ⟨⟨0, 0, 1⟩,
      [⟨1, 3, [.empty, .box, .board 0]⟩, ⟨1, 3, [.empty, .empty, .empty]⟩]⟩) := by
  decide

/-- Claim C6 (code bug): `c6state` is well-formed and satisfies all the
claimed invariants, yet the successful pushing move `go Left` (a chain of
two mutual "eat" reversals whose push sequence visits the cells
`(1,(0,0))`, `(0,(0,2))` and the player's own cell twice) produces a state
whose player cell holds `Board 0`, not `Box` — invariant 1 of the claim is
violated after a single move.  Board dimensions and reference uniqueness
are preserved. -/
theorem c6_invariant_violated :
    c6state.WF ∧ c6state.get c6state.player = .box ∧
      (∀ i < c6state.boards.length, cellCount (.board i) c6state ≤ 1) ∧
      (c6state.go .left).1 = .ok true ∧
      (c6state.go .left).2.get (c6state.go .left).2.player = .board 0 ∧
      (∀ i < (c6state.go .left).2.boards.length,
        cellCount (.board i) (c6state.go .left).2 ≤ 1) := by
  decide

/-- Witness for claim C2 at a concrete input: pushing right into the wall
returns `Unmovable` and the state is unchanged. -/
theorem c2_witness :
    (c2state.go .right).1 = .err .unmovable ∧ (c2state.go .right).2 = c2state :=
  ⟨by decide, go_err_atomic c2state .right .unmovable (by decide)⟩

/-- Witness for claim C7 at a concrete input. -/
theorem c7_witness : false = false ↔ OnlyPlayerMoved c7state c7post := by
  have hgo : c7state.go .right = (.ok false, c7post) := by decide
  exact go_pushed_iff (by decide) (by decide) hgo

/-- Witness for claim C9 at a concrete input. -/
theorem c9_witness : c9state.set_player c9state.player = some c9state :=
  set_player_self c9state (by decide)

/-- Witness for claim C10 at a concrete input. -/
theorem c10_witness : c10state.go .right = (.err .outOfInfinity, c10state) :=
  go_unreferenced_edge_out_of_infinity c10state .right (by decide) (by decide)
    (by decide)

end Parabox
